import Mathlib

/-!
# Verification of the FileBroke identity-resolution core (`compare.py`)

A shallow embedding of the parts of `compare.py` that the specification's
claims speak about: the partial/full hashing scheme, the SQLite hash cache,
the tree scanner's filters, the fingerprint engine (`hash_map`), the
reconciler in `main`, the sidecar (subtitle) locator, and `parse_size`.

Modelling conventions:
* file bytes are `List Nat`; a digest algorithm is an arbitrary function
  `List Nat → String` (hashlib's incremental interface determines the digest
  from the concatenation of all `update` payloads, which is what we feed it);
* Python dicts are association lists with insertion order and
  update-in-place-on-existing-key semantics (`dictInsert`);
* the SQLite table `filehash` is a list of rows; `REPLACE INTO` with
  `path TEXT PRIMARY KEY` deletes any row with the same path before
  inserting (`HashCache.set`);
* fallible filesystem interactions (`stat`, reading a file, writing the
  cache) are `Option`-valued / `Bool`-valued parameters of the environment;
* `st_mtime` (SQLite `REAL`) is modelled as `Int`: only equality of stored
  and probed values matters to the code.
-/

namespace FileBroke

/-- A byte of file content. -/
abbrev Byte := Nat

/-- `BUF_SIZE = 1024 * 1024` (compare.py line 34). -/
def BUF_SIZE : Nat := 1024 * 1024

/-- The framing marker `b"FIRST"` fed before the head chunk (line 134). -/
def FIRST : List Byte := [70, 73, 82, 83, 84]

/-- The framing marker `b"LAST"` fed before the tail chunk (line 138). -/
def LAST : List Byte := [76, 65, 83, 84]

/-- `FileInfo` dataclass (lines 46-49): absolute path and size in bytes. -/
structure FileInfo where
  path : String
  size : Nat
deriving DecidableEq, Repr

/-! ## Hashing (compare.py lines 117-146) -/

/-- The `while True: chunk = f.read(BUF_SIZE)` loop of `_hash_stream`:
the successive buffers handed to `h.update`.  Fuel-based so that it is
structurally recursive; `content.length` steps always suffice when the
buffer size is positive. -/
def readChunksAux (buf : Nat) : Nat → List Byte → List (List Byte)
  | 0, _ => []
  | fuel + 1, content =>
    if content.isEmpty then []
    else content.take buf :: readChunksAux buf fuel (content.drop buf)

/-- All buffers read by `_hash_stream` over a file's content. -/
def readChunks (buf : Nat) (content : List Byte) : List (List Byte) :=
  readChunksAux buf content.length content

/-- `_hash_stream` (lines 117-125): stream the whole file through the digest
in `BUF_SIZE` reads.  The digest of an incremental hash is the digest of the
concatenation of the update payloads. -/
def hashStream (H : List Byte → String) (content : List Byte) : String :=
  H (readChunks BUF_SIZE content).flatten

/-- `_hash_partial` (lines 127-140).  `f.seek(max(0, size - chunk_size))`
is the `Nat` subtraction `content.length - chunkSize`; the tail read
returns at most `chunkSize` bytes. -/
def hashPartial (H : List Byte → String) (chunkSize : Nat) (content : List Byte) : String :=
  if content.length ≤ chunkSize * 2 then hashStream H content
  else
    let first := content.take chunkSize
    let lastC := (content.drop (content.length - chunkSize)).take chunkSize
    H (FIRST ++ first ++ (LAST ++ lastC))

theorem readChunksAux_join (buf : Nat) (hb : 0 < buf) :
    ∀ fuel content, content.length ≤ fuel → (readChunksAux buf fuel content).flatten = content := by
  intro fuel
  induction fuel with
  | zero =>
    intro content h
    have : content = [] := List.length_eq_zero.mp (Nat.le_zero.mp h)
    simp [readChunksAux, this]
  | succ n ih =>
    intro content h
    by_cases hc : content.isEmpty
    · simp [readChunksAux, hc, List.isEmpty_iff.mp hc]
    · have hne : content ≠ [] := by
        intro hx; exact hc (by simp [hx])
      have hlen : (content.drop buf).length ≤ n := by
        have h1 : 0 < content.length := List.length_pos.mpr hne
        simp only [List.length_drop]
        omega
      rw [readChunksAux, if_neg hc, List.flatten_cons, ih _ hlen]
      exact List.take_append_drop buf content

/-- Sanity: the chunked read loop of `_hash_stream` feeds exactly the whole
file to the digest. -/
theorem hashStream_eq (H : List Byte → String) (content : List Byte) :
    hashStream H content = H content := by
  unfold hashStream readChunks
  rw [readChunksAux_join BUF_SIZE (by decide) content.length content (le_refl _)]

/-- A concrete digest function used by witnesses. -/
def sampleHash (l : List Byte) : String := toString l

/-- C1: the partial-mode digest is fully determined: for a file of size
`≤ 2 * chunkSize` it equals the full-stream digest of the same file;
otherwise it is the digest of `"FIRST" ++ head chunk ++ "LAST" ++ tail
chunk`, hence depends only on the file's first and last `chunkSize` bytes
plus the framing, and repeated runs over unchanged content give the same
digest. -/
theorem c1_partial_digest (H : List Byte → String) (chunkSize : Nat) :
    (∀ content : List Byte, content.length ≤ 2 * chunkSize →
        hashPartial H chunkSize content = hashStream H content) ∧
    (∀ content : List Byte, 2 * chunkSize < content.length →
        hashPartial H chunkSize content =
          H (FIRST ++ content.take chunkSize ++
             (LAST ++ content.drop (content.length - chunkSize)))) ∧
    (∀ c1 c2 : List Byte, 2 * chunkSize < c1.length → 2 * chunkSize < c2.length →
        c1.take chunkSize = c2.take chunkSize →
        c1.drop (c1.length - chunkSize) = c2.drop (c2.length - chunkSize) →
        hashPartial H chunkSize c1 = hashPartial H chunkSize c2) ∧
    (∀ content : List Byte,
        hashPartial H chunkSize content = hashPartial H chunkSize content) := by
  have hbig : ∀ content : List Byte, 2 * chunkSize < content.length →
      hashPartial H chunkSize content =
        H (FIRST ++ content.take chunkSize ++
           (LAST ++ content.drop (content.length - chunkSize))) := by
    intro content h
    have hnle : ¬ content.length ≤ chunkSize * 2 := by omega
    have htail : (content.drop (content.length - chunkSize)).take chunkSize =
        content.drop (content.length - chunkSize) := by
      apply List.take_of_length_le
      simp only [List.length_drop]
      omega
    simp only [hashPartial, hnle, if_false, htail]
  refine ⟨?_, hbig, ?_, fun _ => rfl⟩
  · intro content h
    have hle : content.length ≤ chunkSize * 2 := by omega
    simp [hashPartial, hle]
  · intro c1 c2 h1 h2 hhead htail
    rw [hbig c1 h1, hbig c2 h2, hhead, htail]

theorem c1_witness :
    2 * 1 < ([5, 6, 7] : List Byte).length ∧
      hashPartial sampleHash 1 [5, 6, 7] =
        sampleHash (FIRST ++ [5] ++ (LAST ++ [7])) :=
  ⟨by decide, (c1_partial_digest sampleHash 1).2.1 [5, 6, 7] (by decide)⟩

/-! ## Python dict as an association list -/

/-- `m[k] = v` on a Python dict: update the value in place when the key is
present (keeping its position), append a new binding otherwise. -/
def dictInsert (m : List (String × FileInfo)) (k : String) (v : FileInfo) :
    List (String × FileInfo) :=
  if m.any (fun p => p.1 == k) then
    m.map (fun p => if p.1 == k then (k, v) else p)
  else m ++ [(k, v)]

/-- `list(m.keys())` in insertion order. -/
def dictKeys (m : List (String × FileInfo)) : List String := m.map Prod.fst

/-- `m.get(k)`. -/
def dictLookup (m : List (String × FileInfo)) (k : String) : Option FileInfo :=
  (m.find? (fun p => p.1 == k)).map Prod.snd

theorem dictKeys_dictInsert (m : List (String × FileInfo)) (k : String) (v : FileInfo) :
    dictKeys (dictInsert m k v) = if k ∈ dictKeys m then dictKeys m else dictKeys m ++ [k] := by
  unfold dictInsert dictKeys
  by_cases h : k ∈ m.map Prod.fst
  · obtain ⟨p, hp, hpk⟩ := List.mem_map.mp h
    have hany : m.any (fun p => p.1 == k) = true :=
      List.any_eq_true.mpr ⟨p, hp, by simp [hpk]⟩
    rw [if_pos hany, if_pos h, List.map_map]
    apply List.map_congr_left
    intro q _
    by_cases hq : q.1 = k
    · simp [hq]
    · simp [hq]
  · have hany : m.any (fun p => p.1 == k) = false := by
      rw [List.any_eq_false]
      intro p hp
      simp only [beq_iff_eq]
      intro hpk
      exact h (List.mem_map.mpr ⟨p, hp, hpk⟩)
    rw [if_neg (by simp [hany]), if_neg h, List.map_append]
    rfl

theorem mem_dictKeys_dictInsert (m : List (String × FileInfo)) (k d : String) (v : FileInfo) :
    d ∈ dictKeys (dictInsert m k v) ↔ d ∈ dictKeys m ∨ d = k := by
  rw [dictKeys_dictInsert]
  by_cases h : k ∈ dictKeys m
  · rw [if_pos h]
    constructor
    · exact Or.inl
    · rintro (hd | rfl)
      · exact hd
      · exact h
  · rw [if_neg h]
    simp

theorem dictKeys_nodup_dictInsert (m : List (String × FileInfo)) (k : String) (v : FileInfo)
    (h : (dictKeys m).Nodup) : (dictKeys (dictInsert m k v)).Nodup := by
  rw [dictKeys_dictInsert]
  by_cases hk : k ∈ dictKeys m
  · rwa [if_pos hk]
  · rw [if_neg hk]
    simpa using List.Nodup.append h (List.nodup_singleton k) (by simpa using hk)

theorem mem_dictInsert (m : List (String × FileInfo)) (k : String) (v : FileInfo)
    (x : String × FileInfo) (hx : x ∈ dictInsert m k v) : x = (k, v) ∨ x ∈ m := by
  unfold dictInsert at hx
  by_cases h : m.any (fun p => p.1 == k) = true
  · rw [if_pos h] at hx
    obtain ⟨p, hp, hpx⟩ := List.mem_map.mp hx
    by_cases hpk : p.1 = k
    · left
      rw [← hpx]
      simp [hpk]
    · right
      rw [← hpx]
      simpa [hpk] using hp
  · rw [if_neg h] at hx
    rcases List.mem_append.mp hx with h1 | h1
    · exact Or.inr h1
    · exact Or.inl (by simpa using h1)

theorem dictLookup_dictInsert_self (m : List (String × FileInfo)) (k : String) (v : FileInfo) :
    dictLookup (dictInsert m k v) k = some v := by
  unfold dictInsert dictLookup
  by_cases h : m.any (fun p => p.1 == k) = true
  · rw [if_pos h]
    revert h
    induction m with
    | nil => intro h; simp at h
    | cons q rest ih =>
      intro h
      rw [List.map_cons]
      by_cases hq : q.1 = k
      · rw [List.find?_cons_of_pos _ (by simp [hq])]
        simp [hq]
      · rw [List.find?_cons_of_neg _ (by simp [hq])]
        apply ih
        rcases List.any_eq_true.mp h with ⟨p0, hp0, hp0k⟩
        rcases List.mem_cons.mp hp0 with rfl | hmem
        · exact absurd (by simpa using hp0k) hq
        · exact List.any_eq_true.mpr ⟨p0, hmem, hp0k⟩
  · rw [if_neg h]
    have hnone : m.find? (fun p => p.1 == k) = none := by
      rw [List.find?_eq_none]
      intro p hp hpk
      exact h (List.any_eq_true.mpr ⟨p, hp, hpk⟩)
    rw [List.find?_append, hnone]
    simp [List.find?_cons_of_pos]

theorem dictLookup_dictInsert_ne (m : List (String × FileInfo)) (k k2 : String) (v : FileInfo)
    (h : k2 ≠ k) : dictLookup (dictInsert m k v) k2 = dictLookup m k2 := by
  have hkk2 : k ≠ k2 := Ne.symm h
  unfold dictInsert dictLookup
  by_cases hany : m.any (fun p => p.1 == k) = true
  · rw [if_pos hany]
    clear hany
    induction m with
    | nil => rfl
    | cons q rest ih =>
      rw [List.map_cons, List.find?_cons, List.find?_cons]
      by_cases hq : q.1 = k
      · have h1 : ((if (q.1 == k) = true then (k, v) else q).1 == k2) = false := by
          simp [hq, hkk2]
        have h2 : (q.1 == k2) = false := by
          rw [beq_eq_false_iff_ne, hq]; exact hkk2
        rw [h1, h2]
        exact ih
      · have hif : (if (q.1 == k) = true then (k, v) else q) = q := by simp [hq]
        rw [hif]
        by_cases hq2 : q.1 = k2
        · rw [show (q.1 == k2) = true by simp [hq2]]
        · rw [show (q.1 == k2) = false by simpa using hq2]
          exact ih
  · rw [if_neg hany, List.find?_append]
    have hk2 : (((k, v) : String × FileInfo).1 == k2) = false := by
      rw [beq_eq_false_iff_ne]; exact hkk2
    cases hfind : m.find? (fun p => p.1 == k2) with
    | none => simp [hfind, List.find?_cons, hk2]
    | some p => simp [hfind]

/-! ## HashCache (compare.py lines 52-84)

The table is created with `path TEXT PRIMARY KEY` (line 62) and written
with `REPLACE INTO` (line 78): a conflicting row — same path — is deleted
before the new row is inserted.  `get` (lines 66-73) selects on all six
key columns. -/

/-- One row of the `filehash` table. -/
structure CacheRow where
  path : String
  mtime : Int
  size : Nat
  method : String
  algo : String
  chunk_size : Nat
  hash : String
deriving DecidableEq, Repr

/-- The six-column probe used by `HashCache.get`. -/
structure CacheKey where
  path : String
  mtime : Int
  size : Nat
  method : String
  algo : String
  chunk_size : Nat
deriving DecidableEq, Repr

/-- The `WHERE` clause of `HashCache.get`: all six columns match. -/
def rowMatches (r : CacheRow) (k : CacheKey) : Bool :=
  r.path == k.path && r.mtime == k.mtime && r.size == k.size &&
    r.method == k.method && r.algo == k.algo && r.chunk_size == k.chunk_size

namespace HashCache

/-- `HashCache.get` (lines 66-73): `SELECT hash ... WHERE` all six columns
equal; `fetchone` returns the hash of a matching row, absent otherwise. -/
def get (rows : List CacheRow) (k : CacheKey) : Option String :=
  (rows.find? (fun r => rowMatches r k)).map CacheRow.hash

/-- `HashCache.set` (lines 75-81): `REPLACE INTO` with `path` as the
primary key deletes any row with the same path, then inserts the new row. -/
def set (rows : List CacheRow) (r : CacheRow) : List CacheRow :=
  rows.filter (fun x => !(x.path == r.path)) ++ [r]

end HashCache

theorem hashCache_get_set_self (rows : List CacheRow) (r : CacheRow) :
    HashCache.get (HashCache.set rows r)
      ⟨r.path, r.mtime, r.size, r.method, r.algo, r.chunk_size⟩ = some r.hash := by
  unfold HashCache.get HashCache.set
  rw [List.find?_append]
  have hnone : (rows.filter (fun x => !(x.path == r.path))).find?
      (fun x => rowMatches x ⟨r.path, r.mtime, r.size, r.method, r.algo, r.chunk_size⟩) = none := by
    rw [List.find?_eq_none]
    intro x hx
    have hpath := List.of_mem_filter hx
    simp only [Bool.not_eq_true', beq_eq_false_iff_ne] at hpath
    simp [rowMatches, hpath]
  rw [hnone]
  simp [List.find?_cons, rowMatches]

theorem hashCache_get_set_stale (rows : List CacheRow) (r : CacheRow) (k : CacheKey)
    (hpath : k.path = r.path) (hmiss : rowMatches r k = false) :
    HashCache.get (HashCache.set rows r) k = none := by
  unfold HashCache.get HashCache.set
  rw [List.find?_append]
  have hnone : (rows.filter (fun x => !(x.path == r.path))).find?
      (fun x => rowMatches x k) = none := by
    rw [List.find?_eq_none]
    intro x hx
    have hp := List.of_mem_filter hx
    simp only [Bool.not_eq_true', beq_eq_false_iff_ne] at hp
    have : x.path ≠ k.path := by rw [hpath]; exact hp
    simp [rowMatches, this]
  rw [hnone]
  simp [List.find?_cons, hmiss]

theorem hashCache_get_none (rows : List CacheRow) (k : CacheKey)
    (h : ∀ x ∈ rows, rowMatches x k = false) : HashCache.get rows k = none := by
  unfold HashCache.get
  rw [List.find?_eq_none.mpr (fun x hx => by simp [h x hx])]
  rfl

theorem hashCache_set_paths_nodup (rows : List CacheRow) (r : CacheRow)
    (h : (rows.map CacheRow.path).Nodup) :
    ((HashCache.set rows r).map CacheRow.path).Nodup := by
  unfold HashCache.set
  rw [List.map_append]
  have h1 : ((rows.filter (fun x => !(x.path == r.path))).map CacheRow.path).Nodup :=
    h.sublist (List.Sublist.map CacheRow.path (List.filter_sublist _))
  have hdisj : List.Disjoint
      ((rows.filter (fun x => !(x.path == r.path))).map CacheRow.path)
      ([r].map CacheRow.path) := by
    intro a ha hb
    simp only [List.map_cons, List.map_nil, List.mem_singleton] at hb
    obtain ⟨x, hx, hxa⟩ := List.mem_map.mp ha
    have hne := List.of_mem_filter hx
    simp only [Bool.not_eq_true', beq_eq_false_iff_ne] at hne
    exact hne (by rw [hxa, hb])
  exact List.Nodup.append h1 (List.nodup_singleton _) hdisj

/-- C3 counterexample: the table is keyed by `path` alone, so a second
`store` for the same path with a different mtime REPLACEs the old row
rather than orphaning it: the lookup with the old tuple returns absent,
not the old digest. -/
theorem c3_counterexample :
    HashCache.get
        (HashCache.set (HashCache.set [] ⟨"/v/a.mkv", 1, 10, "partial", "blake2b", 4, "d1"⟩)
          ⟨"/v/a.mkv", 2, 10, "partial", "blake2b", 4, "d2"⟩)
        ⟨"/v/a.mkv", 1, 10, "partial", "blake2b", 4⟩ = none ∧
      HashCache.get
        (HashCache.set (HashCache.set [] ⟨"/v/a.mkv", 1, 10, "partial", "blake2b", 4, "d1"⟩)
          ⟨"/v/a.mkv", 2, 10, "partial", "blake2b", 4, "d2"⟩)
        ⟨"/v/a.mkv", 2, 10, "partial", "blake2b", 4⟩ = some "d2" := by
  constructor <;> rfl

/-- C3 (amended): the backing store keeps exactly one row per *path*
(`path` is the primary key, replace on conflict); after
`store(path, t1, d1)` then `store(path, t2, d2)` with `t1 ≠ t2`, the old
row is deleted, so a lookup with `t1` returns absent while a lookup with
`t2` returns `d2`; a lookup whose tuple differs from every stored row in
any component returns absent. -/
theorem c3_cache_upsert :
    (∀ rows r, (rows.map CacheRow.path).Nodup →
        ((HashCache.set rows r).map CacheRow.path).Nodup) ∧
    (∀ rows r, HashCache.get (HashCache.set rows r)
        ⟨r.path, r.mtime, r.size, r.method, r.algo, r.chunk_size⟩ = some r.hash) ∧
    (∀ rows r k, k.path = r.path → rowMatches r k = false →
        HashCache.get (HashCache.set rows r) k = none) ∧
    (∀ rows k, (∀ x ∈ rows, rowMatches x k = false) → HashCache.get rows k = none) :=
  ⟨hashCache_set_paths_nodup, hashCache_get_set_self, hashCache_get_set_stale,
    hashCache_get_none⟩

theorem c3_witness :
    HashCache.get
        (HashCache.set [⟨"/v/a.mkv", 1, 10, "partial", "blake2b", 4, "d1"⟩]
          ⟨"/v/a.mkv", 2, 10, "partial", "blake2b", 4, "d2"⟩)
        ⟨"/v/a.mkv", 1, 10, "partial", "blake2b", 4⟩ = none :=
  c3_cache_upsert.2.2.1 [⟨"/v/a.mkv", 1, 10, "partial", "blake2b", 4, "d1"⟩]
    ⟨"/v/a.mkv", 2, 10, "partial", "blake2b", 4, "d2"⟩
    ⟨"/v/a.mkv", 1, 10, "partial", "blake2b", 4⟩ rfl (by decide)

/-! ## Python string primitives

`str.lower`, `str.strip` and `str.split()` are modelled over the
character list of the string (ASCII case mapping; Python's Unicode case
table beyond ASCII is out of scope). -/

/-- `s.lower()`. -/
def pyLower (s : String) : String := String.mk (s.data.map Char.toLower)

/-- `s.strip()`: drop leading and trailing whitespace. -/
def pyStrip (s : String) : String :=
  String.mk (((s.data.dropWhile Char.isWhitespace).reverse.dropWhile
    Char.isWhitespace).reverse)

/-- Helper for `str.split()`: accumulate the current (reversed) token. -/
def tokenizeAux : List Char → List Char → List (List Char)
  | [], cur => if cur.isEmpty then [] else [cur.reverse]
  | c :: rest, cur =>
    if c.isWhitespace then
      if cur.isEmpty then tokenizeAux rest [] else cur.reverse :: tokenizeAux rest []
    else tokenizeAux rest (c :: cur)

/-- `s.split()` with no argument: split on whitespace runs, no empty
tokens. -/
def pyTokens (s : String) : List String := (tokenizeAux s.data []).map String.mk

/-! ## Tree scanner (compare.py lines 96-114) -/

/-- Video extensions allow-list (lines 41-44), lowercase. -/
def VIDEO_EXTS : List String :=
  [".mkv", ".mp4", ".m4v", ".mov", ".avi", ".wmv", ".ts", ".m2ts", ".mts", ".webm"]

/-- One directory entry as seen by the `os.walk` loop: its path, its
`Path.suffix` (dot included, original case), the result of `p.stat()`
(`none` when it raises `OSError`/`PermissionError`, e.g. a broken symlink
or permission denied), and `p.is_file()`. -/
structure DirEntry where
  path : String
  suffix : String
  statSize : Option Nat
  isFile : Bool
deriving DecidableEq, Repr

/-- The body of the `for fname in filenames` loop (lines 101-113): skip on
stat failure, non-regular file, size below minimum, or extension not in
the allow-list; otherwise `files[p] = FileInfo(p, st.st_size)`. -/
def collectStep (minSize : Nat) (files : List (String × FileInfo)) (e : DirEntry) :
    List (String × FileInfo) :=
  match e.statSize with
  | none => files
  | some size =>
    if !e.isFile then files
    else if size < minSize then files
    else if !(VIDEO_EXTS.contains (pyLower e.suffix)) then files
    else dictInsert files e.path ⟨e.path, size⟩

/-- `collect_video_files` (lines 96-114) over the walked entries. -/
def collect_video_files (minSize : Nat) (entries : List DirEntry) :
    List (String × FileInfo) :=
  entries.foldl (collectStep minSize) []

/-! ## Fingerprint engine `hash_map` (compare.py lines 148-184)

The environment holds the fallible filesystem interactions:
`stat` is `path.stat()` (`none` = raises), `hashFn` is `hash_file`
(`none` = raises mid-read), `setOk` says whether `cache.set` succeeds for
a path (`false` = raises, swallowed by the bare `except`).  The
`as_completed` iteration order over the submitted futures is the explicit
`completed` list, constrained to be a permutation of the submitted batch
in the theorems. -/

structure HashEnv where
  stat : String → Option (Int × Nat)
  hashFn : String → Option String
  setOk : String → Bool
  method : String
  algo : String
  chunk_size : Nat

/-- The key tuple `(path, mtime, size, method, algo, chunk_size)`. -/
def cacheKeyFor (env : HashEnv) (path : String) (mtime : Int) (size : Nat) : CacheKey :=
  ⟨path, mtime, size, env.method, env.algo, env.chunk_size⟩

/-- The `cached` local of lines 159-161: `None` when caching is disabled,
otherwise the cache probe by the full key tuple. -/
def cachedOf (env : HashEnv) (cache : Option (List CacheRow)) (path : String)
    (mtime : Int) (size : Nat) : Option String :=
  match cache with
  | none => none
  | some rows => HashCache.get rows (cacheKeyFor env path mtime size)

/-- The first loop of `hash_map` (lines 150-165): stat each file (silently
skipping on failure), probe the cache when enabled, and either record the
cached digest (`if cached:` — Python truthiness, so the empty string is a
miss) or queue the file for hashing. -/
def phase1Step (env : HashEnv) (cache : Option (List CacheRow))
    (acc : List (String × FileInfo) × List FileInfo) (fi : FileInfo) :
    List (String × FileInfo) × List FileInfo :=
  match env.stat fi.path with
  | none => acc
  | some (mtime, size) =>
    match cachedOf env cache fi.path mtime size with
    | some d => if d = "" then (acc.1, acc.2 ++ [fi]) else (dictInsert acc.1 d fi, acc.2)
    | none => (acc.1, acc.2 ++ [fi])

/-- `(out, to_hash)` after the first loop. -/
def phase1 (env : HashEnv) (cache : Option (List CacheRow)) (files : List FileInfo) :
    List (String × FileInfo) × List FileInfo :=
  files.foldl (phase1Step env cache) ([], [])

/-- State threaded through the `as_completed` loop. -/
structure HMState where
  out : List (String × FileInfo)
  rows : Option (List CacheRow)
  stderrLog : List String
  stdoutLog : List String
deriving Repr

/-- The diagnostic printed on line 175. -/
def hashErrMsg (path : String) : String := "[hash error] " ++ path

/-- The `if cache: try: st = fi.path.stat(); cache.set(...) except: pass`
block (lines 178-183): with caching enabled, re-stat the file and store
the digest; a failed stat or a failed `cache.set` is swallowed and leaves
the rows unchanged. -/
def storeAttempt (env : HashEnv) (rowsOpt : Option (List CacheRow)) (fi : FileInfo)
    (digest : String) : Option (List CacheRow) :=
  match rowsOpt with
  | none => none
  | some rows =>
    match env.stat fi.path with
    | none => some rows
    | some (mtime, size) =>
      if env.setOk fi.path then
        some (HashCache.set rows
          ⟨fi.path, mtime, size, env.method, env.algo, env.chunk_size, digest⟩)
      else some rows

/-- One iteration of the `as_completed` loop (lines 170-183): a raised
hash is reported on stderr and skipped; a digest is inserted into `out`,
and the cache write is best-effort. -/
def phase2Step (env : HashEnv) (st : HMState) (fi : FileInfo) : HMState :=
  match env.hashFn fi.path with
  | none => { st with stderrLog := st.stderrLog ++ [hashErrMsg fi.path] }
  | some digest =>
    { st with out := dictInsert st.out digest fi,
              rows := storeAttempt env st.rows fi digest }

/-- The full `as_completed` loop. -/
def phase2 (env : HashEnv) (completed : List FileInfo) (st : HMState) : HMState :=
  completed.foldl (phase2Step env) st

/-- The observable result of `hash_map`: the digest-keyed mapping, the
final cache contents, the two output channels, and the batch that was
submitted to the worker pool (i.e. the files on which `hash_file` ran). -/
structure HMResult where
  out : List (String × FileInfo)
  rows : Option (List CacheRow)
  stderrLog : List String
  stdoutLog : List String
  submitted : List FileInfo
deriving Repr

/-- `hash_map` (lines 148-184). -/
def hash_map (env : HashEnv) (files : List FileInfo) (cache : Option (List CacheRow))
    (completed : List FileInfo) : HMResult :=
  let p1 := phase1 env cache files
  let st := phase2 env completed
    { out := p1.1, rows := cache, stderrLog := [], stdoutLog := [] }
  { out := st.out, rows := st.rows, stderrLog := st.stderrLog,
    stdoutLog := st.stdoutLog, submitted := p1.2 }

/-! ### Lemmas about the two loops of `hash_map` -/

theorem phase1Step_eq_none (env : HashEnv) (cache : Option (List CacheRow))
    (acc : List (String × FileInfo) × List FileInfo) (fi : FileInfo)
    (h : env.stat fi.path = none) : phase1Step env cache acc fi = acc := by
  unfold phase1Step
  rw [h]

theorem phase1Step_eq_hit (env : HashEnv) (cache : Option (List CacheRow))
    (acc : List (String × FileInfo) × List FileInfo) (fi : FileInfo)
    (mt : Int) (sz : Nat) (d : String)
    (h : env.stat fi.path = some (mt, sz))
    (hc : cachedOf env cache fi.path mt sz = some d) (hd : d ≠ "") :
    phase1Step env cache acc fi = (dictInsert acc.1 d fi, acc.2) := by
  unfold phase1Step
  rw [h]
  dsimp only
  rw [hc]
  dsimp only
  rw [if_neg hd]

theorem phase1Step_eq_miss (env : HashEnv) (cache : Option (List CacheRow))
    (acc : List (String × FileInfo) × List FileInfo) (fi : FileInfo)
    (mt : Int) (sz : Nat)
    (h : env.stat fi.path = some (mt, sz))
    (hc : cachedOf env cache fi.path mt sz = none ∨
      cachedOf env cache fi.path mt sz = some "") :
    phase1Step env cache acc fi = (acc.1, acc.2 ++ [fi]) := by
  unfold phase1Step
  rw [h]
  dsimp only
  rcases hc with hc | hc
  · rw [hc]
  · rw [hc]
    dsimp only
    rw [if_pos rfl]

theorem phase1Step_snd (env : HashEnv) (cache : Option (List CacheRow))
    (acc : List (String × FileInfo) × List FileInfo) (fi : FileInfo) :
    (phase1Step env cache acc fi).2 = acc.2 ∨
      (phase1Step env cache acc fi).2 = acc.2 ++ [fi] := by
  cases hstat : env.stat fi.path with
  | none => rw [phase1Step_eq_none env cache acc fi hstat]; exact Or.inl rfl
  | some pr =>
    obtain ⟨mt, sz⟩ := pr
    cases hc : cachedOf env cache fi.path mt sz with
    | none => rw [phase1Step_eq_miss env cache acc fi mt sz hstat (Or.inl hc)]; exact Or.inr rfl
    | some d =>
      by_cases hd : d = ""
      · rw [phase1Step_eq_miss env cache acc fi mt sz hstat (Or.inr (hd ▸ hc))]
        exact Or.inr rfl
      · rw [phase1Step_eq_hit env cache acc fi mt sz d hstat hc hd]
        exact Or.inl rfl

theorem phase1Step_fst_origin (env : HashEnv) (cache : Option (List CacheRow))
    (acc : List (String × FileInfo) × List FileInfo) (fi : FileInfo)
    (x : String × FileInfo) (hx : x ∈ (phase1Step env cache acc fi).1) :
    x ∈ acc.1 ∨ (x.2 = fi ∧ ∃ mt sz, env.stat fi.path = some (mt, sz) ∧
      cachedOf env cache fi.path mt sz = some x.1 ∧ x.1 ≠ "") := by
  cases hstat : env.stat fi.path with
  | none => rw [phase1Step_eq_none env cache acc fi hstat] at hx; exact Or.inl hx
  | some pr =>
    obtain ⟨mt, sz⟩ := pr
    cases hc : cachedOf env cache fi.path mt sz with
    | none =>
      rw [phase1Step_eq_miss env cache acc fi mt sz hstat (Or.inl hc)] at hx
      exact Or.inl hx
    | some d =>
      by_cases hd : d = ""
      · rw [phase1Step_eq_miss env cache acc fi mt sz hstat (Or.inr (hd ▸ hc))] at hx
        exact Or.inl hx
      · rw [phase1Step_eq_hit env cache acc fi mt sz d hstat hc hd] at hx
        rcases mem_dictInsert _ _ _ _ hx with rfl | hmem
        · exact Or.inr ⟨rfl, mt, sz, rfl, hc, hd⟩
        · exact Or.inl hmem

theorem phase1Step_keys_mono (env : HashEnv) (cache : Option (List CacheRow))
    (acc : List (String × FileInfo) × List FileInfo) (fi : FileInfo)
    (k : String) (hk : k ∈ dictKeys acc.1) :
    k ∈ dictKeys (phase1Step env cache acc fi).1 := by
  cases hstat : env.stat fi.path with
  | none => rw [phase1Step_eq_none env cache acc fi hstat]; exact hk
  | some pr =>
    obtain ⟨mt, sz⟩ := pr
    cases hc : cachedOf env cache fi.path mt sz with
    | none => rw [phase1Step_eq_miss env cache acc fi mt sz hstat (Or.inl hc)]; exact hk
    | some d =>
      by_cases hd : d = ""
      · rw [phase1Step_eq_miss env cache acc fi mt sz hstat (Or.inr (hd ▸ hc))]
        exact hk
      · rw [phase1Step_eq_hit env cache acc fi mt sz d hstat hc hd]
        exact (mem_dictKeys_dictInsert _ _ _ _).mpr (Or.inl hk)

theorem phase1Step_keys_nodup (env : HashEnv) (cache : Option (List CacheRow))
    (acc : List (String × FileInfo) × List FileInfo) (fi : FileInfo)
    (hn : (dictKeys acc.1).Nodup) :
    (dictKeys (phase1Step env cache acc fi).1).Nodup := by
  cases hstat : env.stat fi.path with
  | none => rw [phase1Step_eq_none env cache acc fi hstat]; exact hn
  | some pr =>
    obtain ⟨mt, sz⟩ := pr
    cases hc : cachedOf env cache fi.path mt sz with
    | none => rw [phase1Step_eq_miss env cache acc fi mt sz hstat (Or.inl hc)]; exact hn
    | some d =>
      by_cases hd : d = ""
      · rw [phase1Step_eq_miss env cache acc fi mt sz hstat (Or.inr (hd ▸ hc))]
        exact hn
      · rw [phase1Step_eq_hit env cache acc fi mt sz d hstat hc hd]
        exact dictKeys_nodup_dictInsert _ _ _ hn

theorem phase1_snd_origin (env : HashEnv) (cache : Option (List CacheRow)) :
    ∀ (files : List FileInfo) (acc : List (String × FileInfo) × List FileInfo)
      (fi : FileInfo), fi ∈ (files.foldl (phase1Step env cache) acc).2 →
      fi ∈ acc.2 ∨ fi ∈ files := by
  intro files
  induction files with
  | nil => intro acc fi h; exact Or.inl h
  | cons f rest ih =>
    intro acc fi h
    rcases ih (phase1Step env cache acc f) fi h with hmem | hmem
    · rcases phase1Step_snd env cache acc f with he | he
      · rw [he] at hmem; exact Or.inl hmem
      · rw [he] at hmem
        rcases List.mem_append.mp hmem with h1 | h1
        · exact Or.inl h1
        · exact Or.inr (List.mem_cons.mpr (Or.inl (List.mem_singleton.mp h1)))
    · exact Or.inr (List.mem_cons.mpr (Or.inr hmem))

theorem phase1_fst_origin (env : HashEnv) (cache : Option (List CacheRow)) :
    ∀ (files : List FileInfo) (acc : List (String × FileInfo) × List FileInfo)
      (x : String × FileInfo), x ∈ (files.foldl (phase1Step env cache) acc).1 →
      x ∈ acc.1 ∨ (x.2 ∈ files ∧ ∃ mt sz, env.stat x.2.path = some (mt, sz) ∧
        cachedOf env cache x.2.path mt sz = some x.1 ∧ x.1 ≠ "") := by
  intro files
  induction files with
  | nil => intro acc x h; exact Or.inl h
  | cons f rest ih =>
    intro acc x h
    rcases ih (phase1Step env cache acc f) x h with hmem | hmem
    · rcases phase1Step_fst_origin env cache acc f x hmem with h1 | ⟨hfi, mt, sz, hs, hc, hd⟩
      · exact Or.inl h1
      · exact Or.inr ⟨hfi ▸ List.mem_cons_self f rest, mt, sz, hfi ▸ hs, hfi ▸ hc, hd⟩
    · exact Or.inr ⟨List.mem_cons.mpr (Or.inr hmem.1), hmem.2⟩

theorem phase1_keys_mono (env : HashEnv) (cache : Option (List CacheRow)) :
    ∀ (files : List FileInfo) (acc : List (String × FileInfo) × List FileInfo)
      (k : String), k ∈ dictKeys acc.1 →
      k ∈ dictKeys (files.foldl (phase1Step env cache) acc).1 := by
  intro files
  induction files with
  | nil => intro acc k hk; exact hk
  | cons f rest ih =>
    intro acc k hk
    exact ih (phase1Step env cache acc f) k (phase1Step_keys_mono env cache acc f k hk)

theorem phase1_keys_nodup (env : HashEnv) (cache : Option (List CacheRow)) :
    ∀ (files : List FileInfo) (acc : List (String × FileInfo) × List FileInfo),
      (dictKeys acc.1).Nodup → (dictKeys (files.foldl (phase1Step env cache) acc).1).Nodup := by
  intro files
  induction files with
  | nil => intro acc h; exact h
  | cons f rest ih =>
    intro acc h
    exact ih (phase1Step env cache acc f) (phase1Step_keys_nodup env cache acc f h)

/-- A cache hit for path `p` means every occurrence of `p` in the batch
takes the cached branch: nothing with path `p` is ever queued for
hashing. -/
theorem phase1_hit_not_queued (env : HashEnv) (cache : Option (List CacheRow))
    (p : String) (mt : Int) (sz : Nat) (d : String)
    (hstat : env.stat p = some (mt, sz))
    (hc : cachedOf env cache p mt sz = some d) (hd : d ≠ "") :
    ∀ (files : List FileInfo) (acc : List (String × FileInfo) × List FileInfo),
      (∀ x ∈ acc.2, x.path ≠ p) →
      ∀ x ∈ (files.foldl (phase1Step env cache) acc).2, x.path ≠ p := by
  intro files
  induction files with
  | nil => intro acc hacc x hx; exact hacc x hx
  | cons f rest ih =>
    intro acc hacc x hx
    apply ih (phase1Step env cache acc f) _ x hx
    intro y hy
    by_cases hf : f.path = p
    · have hstep : phase1Step env cache acc f = (dictInsert acc.1 d f, acc.2) :=
        phase1Step_eq_hit env cache acc f mt sz d (by rw [hf]; exact hstat)
          (by rw [hf]; exact hc) hd
      rw [hstep] at hy
      exact hacc y hy
    · rcases phase1Step_snd env cache acc f with he | he
      · rw [he] at hy; exact hacc y hy
      · rw [he] at hy
        rcases List.mem_append.mp hy with h1 | h1
        · exact hacc y h1
        · rw [List.mem_singleton.mp h1]; exact hf

/-- A cache hit for a file of the batch puts the cached digest among the
output keys already after the first loop. -/
theorem phase1_hit_key_mem (env : HashEnv) (cache : Option (List CacheRow))
    (fi : FileInfo) (mt : Int) (sz : Nat) (d : String)
    (hstat : env.stat fi.path = some (mt, sz))
    (hc : cachedOf env cache fi.path mt sz = some d) (hd : d ≠ "") :
    ∀ (files : List FileInfo) (acc : List (String × FileInfo) × List FileInfo),
      fi ∈ files → d ∈ dictKeys (files.foldl (phase1Step env cache) acc).1 := by
  intro files
  induction files with
  | nil => intro acc h; cases h
  | cons f rest ih =>
    intro acc hmem
    rcases List.mem_cons.mp hmem with rfl | hmem
    · apply phase1_keys_mono env cache rest (phase1Step env cache acc fi) d
      rw [phase1Step_eq_hit env cache acc fi mt sz d hstat hc hd]
      exact (mem_dictKeys_dictInsert _ _ _ _).mpr (Or.inr rfl)
    · exact ih (phase1Step env cache acc f) hmem

theorem phase2Step_eq_err (env : HashEnv) (st : HMState) (fi : FileInfo)
    (h : env.hashFn fi.path = none) :
    phase2Step env st fi = { st with stderrLog := st.stderrLog ++ [hashErrMsg fi.path] } := by
  unfold phase2Step
  rw [h]

theorem phase2Step_eq_ok (env : HashEnv) (st : HMState) (fi : FileInfo) (d : String)
    (h : env.hashFn fi.path = some d) :
    phase2Step env st fi = { st with out := dictInsert st.out d fi,
                                     rows := storeAttempt env st.rows fi d } := by
  unfold phase2Step
  rw [h]

theorem phase2_out_origin (env : HashEnv) :
    ∀ (l : List FileInfo) (st : HMState) (x : String × FileInfo),
      x ∈ (phase2 env l st).out →
      x ∈ st.out ∨ (x.2 ∈ l ∧ env.hashFn x.2.path = some x.1) := by
  intro l
  induction l with
  | nil => intro st x h; exact Or.inl h
  | cons f rest ih =>
    intro st x h
    rcases ih (phase2Step env st f) x h with hmem | hmem
    · cases hf : env.hashFn f.path with
      | none =>
        rw [phase2Step_eq_err env st f hf] at hmem
        exact Or.inl hmem
      | some d =>
        rw [phase2Step_eq_ok env st f d hf] at hmem
        rcases mem_dictInsert _ _ _ _ hmem with rfl | h1
        · exact Or.inr ⟨List.mem_cons_self f rest, hf⟩
        · exact Or.inl h1
    · exact Or.inr ⟨List.mem_cons.mpr (Or.inr hmem.1), hmem.2⟩

theorem phase2_keys_mono (env : HashEnv) :
    ∀ (l : List FileInfo) (st : HMState) (k : String), k ∈ dictKeys st.out →
      k ∈ dictKeys (phase2 env l st).out := by
  intro l
  induction l with
  | nil => intro st k hk; exact hk
  | cons f rest ih =>
    intro st k hk
    apply ih (phase2Step env st f) k
    cases hf : env.hashFn f.path with
    | none => rw [phase2Step_eq_err env st f hf]; exact hk
    | some d =>
      rw [phase2Step_eq_ok env st f d hf]
      exact (mem_dictKeys_dictInsert _ _ _ _).mpr (Or.inl hk)

theorem phase2_keys_nodup (env : HashEnv) :
    ∀ (l : List FileInfo) (st : HMState), (dictKeys st.out).Nodup →
      (dictKeys (phase2 env l st).out).Nodup := by
  intro l
  induction l with
  | nil => intro st h; exact h
  | cons f rest ih =>
    intro st h
    apply ih (phase2Step env st f)
    cases hf : env.hashFn f.path with
    | none => rw [phase2Step_eq_err env st f hf]; exact h
    | some d =>
      rw [phase2Step_eq_ok env st f d hf]
      exact dictKeys_nodup_dictInsert _ _ _ h

theorem phase2_key_mem (env : HashEnv) :
    ∀ (l : List FileInfo) (st : HMState) (fi : FileInfo) (d : String),
      fi ∈ l → env.hashFn fi.path = some d →
      d ∈ dictKeys (phase2 env l st).out := by
  intro l
  induction l with
  | nil => intro st fi d h; cases h
  | cons f rest ih =>
    intro st fi d hmem hd
    rcases List.mem_cons.mp hmem with rfl | hmem
    · apply phase2_keys_mono env rest (phase2Step env st fi) d
      rw [phase2Step_eq_ok env st fi d hd]
      exact (mem_dictKeys_dictInsert _ _ _ _).mpr (Or.inr rfl)
    · exact ih (phase2Step env st f) fi d hmem hd

theorem phase2_stderr (env : HashEnv) :
    ∀ (l : List FileInfo) (st : HMState),
      (phase2 env l st).stderrLog = st.stderrLog ++
        ((l.filter (fun fi => (env.hashFn fi.path).isNone)).map
          (fun fi => hashErrMsg fi.path)) := by
  intro l
  induction l with
  | nil => intro st; simp [phase2]
  | cons f rest ih =>
    intro st
    show (phase2 env rest (phase2Step env st f)).stderrLog = _
    cases hf : env.hashFn f.path with
    | none =>
      rw [ih (phase2Step env st f), phase2Step_eq_err env st f hf]
      rw [List.filter_cons_of_pos (by simp [hf])]
      simp
    | some d =>
      rw [ih (phase2Step env st f), phase2Step_eq_ok env st f d hf]
      rw [List.filter_cons_of_neg (by simp [hf])]

theorem phase2_stdout (env : HashEnv) :
    ∀ (l : List FileInfo) (st : HMState), (phase2 env l st).stdoutLog = st.stdoutLog := by
  intro l
  induction l with
  | nil => intro st; rfl
  | cons f rest ih =>
    intro st
    show (phase2 env rest (phase2Step env st f)).stdoutLog = _
    rw [ih (phase2Step env st f)]
    cases hf : env.hashFn f.path with
    | none => rw [phase2Step_eq_err env st f hf]
    | some d => rw [phase2Step_eq_ok env st f d hf]

theorem phase2_lookup_preserve (env : HashEnv) (d : String) :
    ∀ (l : List FileInfo) (st : HMState),
      (∀ x ∈ l, env.hashFn x.path ≠ some d) →
      dictLookup (phase2 env l st).out d = dictLookup st.out d := by
  intro l
  induction l with
  | nil => intro st _; rfl
  | cons f rest ih =>
    intro st h
    show dictLookup (phase2 env rest (phase2Step env st f)).out d = _
    rw [ih (phase2Step env st f) (fun x hx => h x (List.mem_cons.mpr (Or.inr hx)))]
    cases hf : env.hashFn f.path with
    | none => rw [phase2Step_eq_err env st f hf]
    | some d2 =>
      rw [phase2Step_eq_ok env st f d2 hf]
      have hne : d ≠ d2 := by
        intro hx
        exact h f (List.mem_cons_self f rest) (hx ▸ hf)
      exact dictLookup_dictInsert_ne st.out d2 d f hne

/-- The last completed future that produced digest `d` is the one whose
record survives at key `d`. -/
theorem phase2_lookup_last (env : HashEnv) (l1 l2 : List FileInfo) (fi : FileInfo)
    (d : String) (st : HMState) (hd : env.hashFn fi.path = some d)
    (h2 : ∀ x ∈ l2, env.hashFn x.path ≠ some d) :
    dictLookup (phase2 env (l1 ++ fi :: l2) st).out d = some fi := by
  unfold phase2
  rw [List.foldl_append]
  show dictLookup (phase2 env l2 (phase2Step env (phase2 env l1 st) fi)).out d = some fi
  rw [phase2_lookup_preserve env d l2 _ h2]
  rw [phase2Step_eq_ok env _ fi d hd]
  exact dictLookup_dictInsert_self _ d fi

theorem phase1_snd_stat (env : HashEnv) (cache : Option (List CacheRow)) :
    ∀ (files : List FileInfo) (acc : List (String × FileInfo) × List FileInfo)
      (fi : FileInfo), fi ∈ (files.foldl (phase1Step env cache) acc).2 →
      fi ∈ acc.2 ∨ ∃ mt sz, env.stat fi.path = some (mt, sz) := by
  intro files
  induction files with
  | nil => intro acc fi h; exact Or.inl h
  | cons f rest ih =>
    intro acc fi h
    rcases ih (phase1Step env cache acc f) fi h with hmem | hmem
    · cases hstat : env.stat f.path with
      | none =>
        rw [phase1Step_eq_none env cache acc f hstat] at hmem
        exact Or.inl hmem
      | some pr =>
        obtain ⟨mt, sz⟩ := pr
        rcases phase1Step_snd env cache acc f with he | he
        · rw [he] at hmem; exact Or.inl hmem
        · rw [he] at hmem
          rcases List.mem_append.mp hmem with h1 | h1
          · exact Or.inl h1
          · rw [List.mem_singleton.mp h1]
            exact Or.inr ⟨mt, sz, hstat⟩
    · exact Or.inr hmem

/-- A file queued for hashing was a cache miss: for its (stat-determined)
key tuple the cache probe returned nothing, or the falsy empty string. -/
theorem phase1_snd_miss (env : HashEnv) (cache : Option (List CacheRow)) :
    ∀ (files : List FileInfo) (acc : List (String × FileInfo) × List FileInfo)
      (fi : FileInfo), fi ∈ (files.foldl (phase1Step env cache) acc).2 →
      fi ∈ acc.2 ∨ ∀ mt sz, env.stat fi.path = some (mt, sz) →
        cachedOf env cache fi.path mt sz = none ∨
          cachedOf env cache fi.path mt sz = some "" := by
  intro files
  induction files with
  | nil => intro acc fi h; exact Or.inl h
  | cons f rest ih =>
    intro acc fi h
    rcases ih (phase1Step env cache acc f) fi h with hmem | hmem
    · cases hstat : env.stat f.path with
      | none =>
        rw [phase1Step_eq_none env cache acc f hstat] at hmem
        exact Or.inl hmem
      | some pr =>
        obtain ⟨mt, sz⟩ := pr
        cases hc : cachedOf env cache f.path mt sz with
        | none =>
          rw [phase1Step_eq_miss env cache acc f mt sz hstat (Or.inl hc)] at hmem
          rcases List.mem_append.mp hmem with h1 | h1
          · exact Or.inl h1
          · rw [List.mem_singleton.mp h1]
            refine Or.inr (fun mt2 sz2 hs2 => ?_)
            rw [hstat] at hs2
            injection hs2 with h3
            injection h3 with h4 h5
            rw [← h4, ← h5]
            exact Or.inl hc
        | some d =>
          by_cases hd : d = ""
          · rw [phase1Step_eq_miss env cache acc f mt sz hstat (Or.inr (hd ▸ hc))] at hmem
            rcases List.mem_append.mp hmem with h1 | h1
            · exact Or.inl h1
            · rw [List.mem_singleton.mp h1]
              refine Or.inr (fun mt2 sz2 hs2 => ?_)
              rw [hstat] at hs2
              injection hs2 with h3
              injection h3 with h4 h5
              rw [← h4, ← h5]
              exact Or.inr (hd ▸ hc)
          · rw [phase1Step_eq_hit env cache acc f mt sz d hstat hc hd] at hmem
            exact Or.inl hmem
    · exact Or.inr hmem

theorem hash_map_submitted (env : HashEnv) (files : List FileInfo)
    (cache : Option (List CacheRow)) (completed : List FileInfo) :
    (hash_map env files cache completed).submitted = (phase1 env cache files).2 := rfl

theorem hash_map_out_eq (env : HashEnv) (files : List FileInfo)
    (cache : Option (List CacheRow)) (completed : List FileInfo) :
    (hash_map env files cache completed).out =
      (phase2 env completed ⟨(phase1 env cache files).1, cache, [], []⟩).out := rfl

theorem hash_map_stderr_eq (env : HashEnv) (files : List FileInfo)
    (cache : Option (List CacheRow)) (completed : List FileInfo) :
    (hash_map env files cache completed).stderrLog =
      (phase2 env completed ⟨(phase1 env cache files).1, cache, [], []⟩).stderrLog := rfl

theorem hash_map_stdout_eq (env : HashEnv) (files : List FileInfo)
    (cache : Option (List CacheRow)) (completed : List FileInfo) :
    (hash_map env files cache completed).stdoutLog =
      (phase2 env completed ⟨(phase1 env cache files).1, cache, [], []⟩).stdoutLog := rfl

/-- Where every record of the final mapping comes from: a file of the
input batch, statted successfully, whose digest came either from a cache
hit or from a completed hashing task. -/
theorem hash_map_out_origin (env : HashEnv) (files : List FileInfo)
    (cache : Option (List CacheRow)) (completed : List FileInfo)
    (hperm : completed.Perm (phase1 env cache files).2) :
    ∀ x ∈ (hash_map env files cache completed).out,
      x.2 ∈ files ∧ (∃ mt sz, env.stat x.2.path = some (mt, sz)) ∧
        ((∃ mt sz, env.stat x.2.path = some (mt, sz) ∧
            cachedOf env cache x.2.path mt sz = some x.1 ∧ x.1 ≠ "") ∨
          env.hashFn x.2.path = some x.1) := by
  intro x hx
  rw [hash_map_out_eq] at hx
  rcases phase2_out_origin env completed _ x hx with h1 | ⟨hmem, hf⟩
  · rcases phase1_fst_origin env cache files ([], []) x h1 with h2 | ⟨hmemf, mt, sz, hs, hc, hne⟩
    · cases h2
    · exact ⟨hmemf, ⟨mt, sz, hs⟩, Or.inl ⟨mt, sz, hs, hc, hne⟩⟩
  · have hq : x.2 ∈ (phase1 env cache files).2 := hperm.mem_iff.mp hmem
    rcases phase1_snd_origin env cache files ([], []) x.2 hq with h2 | h2
    · cases h2
    · rcases phase1_snd_stat env cache files ([], []) x.2 hq with h3 | h3
      · cases h3
      · exact ⟨h2, h3, Or.inr hf⟩

theorem collectStep_origin (minSize : Nat) (files : List (String × FileInfo))
    (e : DirEntry) (x : String × FileInfo) (hx : x ∈ collectStep minSize files e) :
    x ∈ files ∨ ∃ sz, e.statSize = some sz ∧ e.isFile = true ∧ minSize ≤ sz ∧
      VIDEO_EXTS.contains (pyLower e.suffix) = true ∧ x = (e.path, ⟨e.path, sz⟩) := by
  unfold collectStep at hx
  split at hx
  · exact Or.inl hx
  · rename_i sz hs
    split at hx
    · exact Or.inl hx
    · rename_i hisf
      split at hx
      · exact Or.inl hx
      · rename_i hsize
        split at hx
        · exact Or.inl hx
        · rename_i hext
          rcases mem_dictInsert _ _ _ _ hx with rfl | hmem
          · refine Or.inr ⟨sz, hs, by simpa using hisf, by omega, by simpa using hext, rfl⟩
          · exact Or.inl hmem

theorem collect_origin (minSize : Nat) :
    ∀ (entries : List DirEntry) (acc : List (String × FileInfo)) (x : String × FileInfo),
      x ∈ entries.foldl (collectStep minSize) acc →
      x ∈ acc ∨ ∃ e ∈ entries, ∃ sz, e.statSize = some sz ∧ e.isFile = true ∧
        minSize ≤ sz ∧ VIDEO_EXTS.contains (pyLower e.suffix) = true ∧
        x = (e.path, ⟨e.path, sz⟩) := by
  intro entries
  induction entries with
  | nil => intro acc x h; exact Or.inl h
  | cons e rest ih =>
    intro acc x h
    rcases ih (collectStep minSize acc e) x h with hmem | ⟨e2, he2, hrest⟩
    · rcases collectStep_origin minSize acc e x hmem with h1 | ⟨sz, hcond⟩
      · exact Or.inl h1
      · exact Or.inr ⟨e, List.mem_cons_self e rest, sz, hcond⟩
    · exact Or.inr ⟨e2, List.mem_cons.mpr (Or.inr he2), hrest⟩

/-- C4: every entry of the scanned mapping is a regular file whose
(case-insensitively compared) extension is in the video allow-list and
whose size at stat time is at least the minimum; entries whose stat
raised are skipped (nothing in the output can come from one); and any
record of a fingerprint mapping built from the scan output has size at
least the minimum, so a file below the threshold never appears in a
fingerprint set. -/
theorem c4_scan_filters :
    (∀ (minSize : Nat) (entries : List DirEntry) (x : String × FileInfo),
        x ∈ collect_video_files minSize entries →
        ∃ e ∈ entries, ∃ sz, e.statSize = some sz ∧ e.isFile = true ∧
          minSize ≤ sz ∧ VIDEO_EXTS.contains (pyLower e.suffix) = true ∧
          x = (e.path, ⟨e.path, sz⟩)) ∧
    (∀ (minSize : Nat) (entries : List DirEntry) (env : HashEnv)
        (cache : Option (List CacheRow)) (completed : List FileInfo),
        completed.Perm (phase1 env cache ((collect_video_files minSize entries).map Prod.snd)).2 →
        ∀ x ∈ (hash_map env ((collect_video_files minSize entries).map Prod.snd)
            cache completed).out, minSize ≤ x.2.size) := by
  constructor
  · intro minSize entries x hx
    rcases collect_origin minSize entries [] x hx with h | h
    · cases h
    · exact h
  · intro minSize entries env cache completed hperm x hx
    have hmem := (hash_map_out_origin env _ cache completed hperm x hx).1
    rcases List.mem_map.mp hmem with ⟨p, hp, hpx⟩
    rcases collect_origin minSize entries [] p hp with h | ⟨e, _, sz, _, _, hmin, _, hpe⟩
    · cases h
    · rw [← hpx, hpe]
      exact hmin

theorem c4_witness :
    (("/m/a.mkv", (⟨"/m/a.mkv", 10⟩ : FileInfo)) ∈
        collect_video_files 5 [⟨"/m/a.mkv", ".MKV", some 10, true⟩]) ∧
      (∃ e ∈ [(⟨"/m/a.mkv", ".MKV", some 10, true⟩ : DirEntry)], ∃ sz,
        e.statSize = some sz ∧ e.isFile = true ∧ 5 ≤ sz ∧
        VIDEO_EXTS.contains (pyLower e.suffix) = true ∧
        ("/m/a.mkv", (⟨"/m/a.mkv", 10⟩ : FileInfo)) = (e.path, ⟨e.path, sz⟩)) :=
  ⟨by decide, c4_scan_filters.1 5 [⟨"/m/a.mkv", ".MKV", some 10, true⟩]
    ("/m/a.mkv", ⟨"/m/a.mkv", 10⟩) (by decide)⟩

/-- C8: the fingerprint mapping holds at most one record per digest (its
keys are nodup); every successfully hashed file's digest is a key of the
final mapping; every record of the mapping is one of the batch's files
whose digest (cached or computed) is the record's key; and on a digest
collision exactly the last completed writer survives at that key. -/
theorem c8_digest_collision_collapse (env : HashEnv) (files : List FileInfo)
    (cache : Option (List CacheRow)) (completed : List FileInfo)
    (hperm : completed.Perm (phase1 env cache files).2) :
    (dictKeys (hash_map env files cache completed).out).Nodup ∧
    (∀ fi ∈ completed, ∀ d, env.hashFn fi.path = some d →
        d ∈ dictKeys (hash_map env files cache completed).out) ∧
    (∀ x ∈ (hash_map env files cache completed).out,
        x.2 ∈ files ∧
          ((∃ mt sz, env.stat x.2.path = some (mt, sz) ∧
              cachedOf env cache x.2.path mt sz = some x.1 ∧ x.1 ≠ "") ∨
            env.hashFn x.2.path = some x.1)) ∧
    (∀ (l1 l2 : List FileInfo) (fi : FileInfo) (d : String),
        completed = l1 ++ fi :: l2 → env.hashFn fi.path = some d →
        (∀ x ∈ l2, env.hashFn x.path ≠ some d) →
        dictLookup (hash_map env files cache completed).out d = some fi) := by
  refine ⟨?_, ?_, ?_, ?_⟩
  · rw [hash_map_out_eq]
    exact phase2_keys_nodup env completed _
      (phase1_keys_nodup env cache files ([], []) (by simp [dictKeys]))
  · intro fi hfi d hd
    rw [hash_map_out_eq]
    exact phase2_key_mem env completed _ fi d hfi hd
  · intro x hx
    have h := hash_map_out_origin env files cache completed hperm x hx
    exact ⟨h.1, h.2.2⟩
  · intro l1 l2 fi d hc hd h2
    rw [hash_map_out_eq, hc]
    exact phase2_lookup_last env l1 l2 fi d _ hd h2

/-- Environment for the C8 witness: both files hash to the same digest. -/
def envC8 : HashEnv :=
  ⟨fun _ => some (1, 10), fun _ => some "d", fun _ => true, "partial", "blake2b", 4⟩

theorem c8_witness :
    dictLookup (hash_map envC8 [⟨"a", 5⟩, ⟨"b", 6⟩] none [⟨"a", 5⟩, ⟨"b", 6⟩]).out "d" =
      some ⟨"b", 6⟩ :=
  (c8_digest_collision_collapse envC8 [⟨"a", 5⟩, ⟨"b", 6⟩] none [⟨"a", 5⟩, ⟨"b", 6⟩]
      (by decide)).2.2.2 [⟨"a", 5⟩] [] ⟨"b", 6⟩ "d" rfl rfl
      (fun x hx => absurd hx (List.not_mem_nil x))

/-- C5: on a cache hit by the full key tuple (with a truthy digest, as
`if cached:` requires), the engine records the cached digest without ever
submitting the file to the hashing pool; and a file hashed on a first run
is stored back into the cache so that a second run over the unchanged
file yields the same digest with nothing submitted for hashing. -/
theorem c5_cache_round_trip :
    (∀ (env : HashEnv) (files : List FileInfo) (rows : List CacheRow)
        (completed : List FileInfo) (fi : FileInfo) (mt : Int) (sz : Nat) (d : String),
        fi ∈ files → env.stat fi.path = some (mt, sz) →
        HashCache.get rows (cacheKeyFor env fi.path mt sz) = some d → d ≠ "" →
        (∀ x ∈ (hash_map env files (some rows) completed).submitted, x.path ≠ fi.path) ∧
          d ∈ dictKeys (hash_map env files (some rows) completed).out) ∧
    (∀ (env : HashEnv) (fi : FileInfo) (rows : List CacheRow) (mt : Int) (sz : Nat)
        (d : String),
        env.stat fi.path = some (mt, sz) →
        HashCache.get rows (cacheKeyFor env fi.path mt sz) = none →
        env.hashFn fi.path = some d → d ≠ "" → env.setOk fi.path = true →
        (hash_map env [fi] (some rows) [fi]).out = [(d, fi)] ∧
          (hash_map env [fi] (some rows) [fi]).submitted = [fi] ∧
          (hash_map env [fi] (some rows) [fi]).rows =
            some (HashCache.set rows
              ⟨fi.path, mt, sz, env.method, env.algo, env.chunk_size, d⟩) ∧
          (hash_map env [fi]
              (some (HashCache.set rows
                ⟨fi.path, mt, sz, env.method, env.algo, env.chunk_size, d⟩)) []).out =
            [(d, fi)] ∧
          (hash_map env [fi]
              (some (HashCache.set rows
                ⟨fi.path, mt, sz, env.method, env.algo, env.chunk_size, d⟩)) []).submitted =
            []) := by
  constructor
  · intro env files rows completed fi mt sz d hfi hstat hget hd
    have hc : cachedOf env (some rows) fi.path mt sz = some d := hget
    constructor
    · rw [hash_map_submitted]
      exact phase1_hit_not_queued env (some rows) fi.path mt sz d hstat hc hd files
        ([], []) (fun y hy => absurd hy (List.not_mem_nil y))
    · rw [hash_map_out_eq]
      exact phase2_keys_mono env completed _ d
        (phase1_hit_key_mem env (some rows) fi mt sz d hstat hc hd files ([], []) hfi)
  · intro env fi rows mt sz d hstat hget hhash hd hset
    have hc : cachedOf env (some rows) fi.path mt sz = none := hget
    have hrow1 : phase1 env (some rows) [fi] = ([], [fi]) := by
      unfold phase1
      rw [List.foldl_cons, List.foldl_nil,
        phase1Step_eq_miss env (some rows) ([], []) fi mt sz hstat (Or.inl hc)]
      rfl
    have hst : phase2Step env ⟨[], some rows, [], []⟩ fi =
        ⟨dictInsert [] d fi, storeAttempt env (some rows) fi d, [], []⟩ :=
      phase2Step_eq_ok env ⟨[], some rows, [], []⟩ fi d hhash
    have hstore : storeAttempt env (some rows) fi d =
        some (HashCache.set rows
          ⟨fi.path, mt, sz, env.method, env.algo, env.chunk_size, d⟩) := by
      unfold storeAttempt
      rw [hstat]
      dsimp only
      rw [if_pos hset]
    have hout1 : (hash_map env [fi] (some rows) [fi]).out = [(d, fi)] := by
      rw [hash_map_out_eq, hrow1]
      show (phase2 env [fi] ⟨[], some rows, [], []⟩).out = [(d, fi)]
      unfold phase2
      rw [List.foldl_cons, List.foldl_nil, hst]
      rfl
    have hsub1 : (hash_map env [fi] (some rows) [fi]).submitted = [fi] := by
      rw [hash_map_submitted, hrow1]
    have hrows1 : (hash_map env [fi] (some rows) [fi]).rows =
        some (HashCache.set rows
          ⟨fi.path, mt, sz, env.method, env.algo, env.chunk_size, d⟩) := by
      show (phase2 env [fi] ⟨(phase1 env (some rows) [fi]).1, some rows, [], []⟩).rows = _
      rw [hrow1]
      show (phase2 env [fi] ⟨[], some rows, [], []⟩).rows = _
      unfold phase2
      rw [List.foldl_cons, List.foldl_nil, hst]
      exact hstore
    have hget2 : cachedOf env
        (some (HashCache.set rows
          ⟨fi.path, mt, sz, env.method, env.algo, env.chunk_size, d⟩))
        fi.path mt sz = some d :=
      hashCache_get_set_self rows ⟨fi.path, mt, sz, env.method, env.algo, env.chunk_size, d⟩
    have hrow2 : phase1 env
        (some (HashCache.set rows
          ⟨fi.path, mt, sz, env.method, env.algo, env.chunk_size, d⟩)) [fi] =
        (dictInsert [] d fi, []) := by
      unfold phase1
      rw [List.foldl_cons, List.foldl_nil,
        phase1Step_eq_hit env _ ([], []) fi mt sz d hstat hget2 hd]
    refine ⟨hout1, hsub1, hrows1, ?_, ?_⟩
    · rw [hash_map_out_eq, hrow2]
      rfl
    · rw [hash_map_submitted, hrow2]

/-- Environment for the C5 witness. -/
def envC5 : HashEnv :=
  ⟨fun _ => some (1, 10), fun _ => some "dg", fun _ => true, "partial", "blake2b", 4⟩

theorem c5_witness :
    (hash_map envC5 [⟨"/a", 10⟩] (some []) [⟨"/a", 10⟩]).out = [("dg", ⟨"/a", 10⟩)] ∧
      (hash_map envC5 [⟨"/a", 10⟩]
        (some (HashCache.set []
          ⟨"/a", 1, 10, "partial", "blake2b", 4, "dg"⟩)) []).submitted = [] :=
  ⟨(c5_cache_round_trip.2 envC5 ⟨"/a", 10⟩ [] 1 10 "dg" rfl rfl rfl (by decide) rfl).1,
   (c5_cache_round_trip.2 envC5 ⟨"/a", 10⟩ [] 1 10 "dg" rfl rfl rfl (by decide) rfl).2.2.2.2⟩

/-- C7 (amended): a file whose hashing read raises is dropped from the
output mapping, with a `[hash error]` diagnostic on stderr; a file whose
pre-hash stat raises is dropped silently; nothing is ever written to
stdout; and neither failure prevents any other file of the batch from
being hashed and inserted. -/
theorem c7_failure_containment (env : HashEnv) (files : List FileInfo)
    (cache : Option (List CacheRow)) (completed : List FileInfo)
    (hperm : completed.Perm (phase1 env cache files).2) :
    (hash_map env files cache completed).stderrLog =
      (completed.filter (fun fi => (env.hashFn fi.path).isNone)).map
        (fun fi => hashErrMsg fi.path) ∧
    (hash_map env files cache completed).stdoutLog = [] ∧
    (∀ fi ∈ files, env.stat fi.path = none →
        ∀ d, (d, fi) ∉ (hash_map env files cache completed).out) ∧
    (∀ fi ∈ completed, ∀ d, env.hashFn fi.path = some d →
        d ∈ dictKeys (hash_map env files cache completed).out) ∧
    (∀ fi ∈ completed, env.hashFn fi.path = none →
        ∀ d, (d, fi) ∉ (hash_map env files cache completed).out) := by
  refine ⟨?_, ?_, ?_, ?_, ?_⟩
  · rw [hash_map_stderr_eq, phase2_stderr]
    rfl
  · rw [hash_map_stdout_eq, phase2_stdout]
  · intro fi hfi hstat d hmem
    rcases (hash_map_out_origin env files cache completed hperm (d, fi) hmem).2.1 with
      ⟨mt, sz, hs⟩
    rw [hstat] at hs
    cases hs
  · intro fi hfi d hd
    rw [hash_map_out_eq]
    exact phase2_key_mem env completed _ fi d hfi hd
  · intro fi hfi hnone d hmem
    rcases (hash_map_out_origin env files cache completed hperm (d, fi) hmem).2.2 with
      ⟨mt, sz, hs, hc, hne⟩ | hhash
    · have hq : fi ∈ (phase1 env cache files).2 := hperm.mem_iff.mp hfi
      rcases phase1_snd_miss env cache files ([], []) fi hq with h0 | hmiss
      · cases h0
      · rcases hmiss mt sz hs with h1 | h1
        · rw [hc] at h1
          cases h1
        · rw [hc] at h1
          exact hne (Option.some.inj h1)
    · rw [hnone] at hhash
      cases hhash

/-- Environment for the C7 witness: `"a"` vanishes before the pre-hash
stat, hashing `"b"` raises, `"c"` hashes fine. -/
def envC7w : HashEnv :=
  ⟨fun p => if p = "a" then none else some (1, 2),
   fun p => if p = "c" then some "dc" else none,
   fun _ => true, "partial", "blake2b", 4⟩

theorem c7_witness :
    (hash_map envC7w [⟨"a", 1⟩, ⟨"b", 2⟩, ⟨"c", 3⟩] none
        [⟨"b", 2⟩, ⟨"c", 3⟩]).stdoutLog = [] ∧
      "dc" ∈ dictKeys (hash_map envC7w [⟨"a", 1⟩, ⟨"b", 2⟩, ⟨"c", 3⟩] none
        [⟨"b", 2⟩, ⟨"c", 3⟩]).out ∧
      (∀ d : String, (d, (⟨"b", 2⟩ : FileInfo)) ∉
        (hash_map envC7w [⟨"a", 1⟩, ⟨"b", 2⟩, ⟨"c", 3⟩] none
          [⟨"b", 2⟩, ⟨"c", 3⟩]).out) :=
  ⟨(c7_failure_containment envC7w [⟨"a", 1⟩, ⟨"b", 2⟩, ⟨"c", 3⟩] none
      [⟨"b", 2⟩, ⟨"c", 3⟩] (by decide)).2.1,
   (c7_failure_containment envC7w [⟨"a", 1⟩, ⟨"b", 2⟩, ⟨"c", 3⟩] none
      [⟨"b", 2⟩, ⟨"c", 3⟩] (by decide)).2.2.2.1 ⟨"c", 3⟩ (by decide) "dc" (by decide),
   (c7_failure_containment envC7w [⟨"a", 1⟩, ⟨"b", 2⟩, ⟨"c", 3⟩] none
      [⟨"b", 2⟩, ⟨"c", 3⟩] (by decide)).2.2.2.2 ⟨"b", 2⟩ (by decide) rfl⟩

/-- Environment for the C7 counterexample: the file's stat raises. -/
def envC7x : HashEnv :=
  ⟨fun _ => none, fun _ => none, fun _ => true, "partial", "blake2b", 4⟩

/-- C7 counterexample: a file that disappears between scan and hash —
surfacing at the engine's pre-hash `stat` — is dropped from the output
mapping but NO diagnostic at all is emitted (stderr stays empty),
contradicting the claim that every such drop comes with a stderr
diagnostic. -/
theorem c7_counterexample :
    (∀ d : String, (d, (⟨"gone", 5⟩ : FileInfo)) ∉
        (hash_map envC7x [⟨"gone", 5⟩] none []).out) ∧
      (hash_map envC7x [⟨"gone", 5⟩] none []).stderrLog = [] := by
  constructor
  · intro d hd
    exact List.not_mem_nil (d, (⟨"gone", 5⟩ : FileInfo)) hd
  · rfl

/-! ## Sidecar locator `find_subtitles_for` (compare.py lines 187-215) -/

/-- Subtitle extensions allow-list (line 38). -/
def SUB_EXTS : List String := [".srt", ".sub", ".ass", ".vtt", ".idx"]

/-- A directory entry as seen by `iterdir`: full path, `Path.stem`,
`Path.suffix`, and `p.is_file()`. -/
structure SubEntry where
  path : String
  stem : String
  suffix : String
  isFile : Bool
deriving DecidableEq, Repr

/-- One searched directory: its entries in `iterdir` order, and whether
iterating it succeeds (`false` models `PermissionError`). -/
structure ScanDir where
  entries : List SubEntry
  readable : Bool
deriving Repr

/-- Python's `needle in hay` on strings, over character lists: `needle`
is a contiguous substring of `hay` (the empty needle always matches). -/
def isSubstr (needle : List Char) : List Char → Bool
  | [] => needle.isEmpty
  | c :: t => needle.isPrefixOf (c :: t) || isSubstr needle t

/-- The strict tier (line 202): the video stem occurs inside the
candidate stem, or the candidate stem starts with the video stem (both
lowercased). -/
def strictMatch (vstem : String) (e : SubEntry) : Bool :=
  isSubstr (pyLower vstem).data (pyLower e.stem).data ||
    (pyLower vstem).data.isPrefixOf (pyLower e.stem).data

/-- The loosened tier (line 211): the lowercased stems, split on
whitespace, share at least one token. -/
def looseMatch (vstem : String) (e : SubEntry) : Bool :=
  (pyTokens (pyLower vstem)).any (fun t => (pyTokens (pyLower e.stem)).contains t)

/-- The loosened tier as the specification words it: the FILENAMES (not
the stems) share a whitespace token.  Stated only for comparison with the
code, which compares stems. -/
def specLooseFilenameMatch (videoName candName : String) : Bool :=
  (pyTokens (pyLower videoName)).any (fun t => (pyTokens (pyLower candName)).contains t)

/-- The shared shape of the two `for p in d.iterdir()` loops
(lines 197-203 and 206-212): skip non-files and non-subtitle extensions,
append the paths accepted by the tier's predicate in iteration order. -/
def candidateLoop (accept : SubEntry → Bool) (out : List String) :
    List SubEntry → List String
  | [] => out
  | e :: rest =>
    if !e.isFile then candidateLoop accept out rest
    else if !(SUB_EXTS.contains (pyLower e.suffix)) then candidateLoop accept out rest
    else if accept e then candidateLoop accept (out ++ [e.path]) rest
    else candidateLoop accept out rest

/-- The body of the `for d in candidates_dirs` loop (lines 195-214): on
`PermissionError` the directory is skipped; otherwise the strict pass
runs, and the loosened pass runs only if `out` is still empty
afterwards. -/
def scanDir (vstem : String) (out : List String) (d : ScanDir) : List String :=
  if !d.readable then out
  else
    let out1 := candidateLoop (strictMatch vstem) out d.entries
    if out1.isEmpty then candidateLoop (looseMatch vstem) out1 d.entries else out1

/-- `find_subtitles_for` (lines 187-215): search the parent directory and
the `Subs` child directory when it exists (`subs = none` models a missing
`Subs` directory). -/
def find_subtitles_for (vstem : String) (parent : ScanDir) (subs : Option ScanDir) :
    List String :=
  (parent :: subs.toList).foldl (scanDir vstem) []

theorem candidateLoop_eq (accept : SubEntry → Bool) :
    ∀ (es : List SubEntry) (out : List String),
      candidateLoop accept out es = out ++
        (es.filter (fun e => e.isFile && SUB_EXTS.contains (pyLower e.suffix) &&
          accept e)).map SubEntry.path := by
  intro es
  induction es with
  | nil => intro out; simp [candidateLoop]
  | cons e rest ih =>
    intro out
    unfold candidateLoop
    by_cases h1 : e.isFile = true
    · by_cases h2 : SUB_EXTS.contains (pyLower e.suffix) = true
      · have h2m : pyLower e.suffix ∈ SUB_EXTS := by simpa using h2
        by_cases h3 : accept e = true
        · rw [if_neg (by simp [h1]), if_neg (by simp [h2m]), if_pos h3, ih,
            List.filter_cons_of_pos (by simp [h1, h2m, h3])]
          simp
        · rw [if_neg (by simp [h1]), if_neg (by simp [h2m]), if_neg h3, ih,
            List.filter_cons_of_neg (by simp [h3])]
      · have h2m : pyLower e.suffix ∉ SUB_EXTS := by simpa using h2
        rw [if_neg (by simp [h1]), if_pos (by simp [h2m]), ih,
          List.filter_cons_of_neg (by simp [h2m])]
    · rw [if_pos (by simp [h1]), ih, List.filter_cons_of_neg (by simp [h1])]

/-- C6 counterexample: for video `"a b.mp4"` next to subtitle `"b.srt"`,
the strict tier finds nothing and the code's loosened tier accepts
`"b.srt"` (the stems `"a b"` and `"b"` share the token `"b"`), yet the
claim's loosened tier compares FILENAMES, whose token sets
`{"a","b.mp4"}` and `{"b.srt"}` share nothing — so the claim's
description of the output is false on this input. -/
theorem c6_counterexample :
    find_subtitles_for "a b"
        ⟨[⟨"/p/a b.mp4", "a b", ".mp4", true⟩, ⟨"/p/b.srt", "b", ".srt", true⟩], true⟩
        none = ["/p/b.srt"] ∧
      specLooseFilenameMatch "a b.mp4" "b.srt" = false ∧
      strictMatch "a b" ⟨"/p/b.srt", "b", ".srt", true⟩ = false := by
  refine ⟨by decide, by decide, by decide⟩

/-- C6 (amended): the locator searches the containing directory plus the
`Subs` child when present; a directory pass first collects, in iteration
order, every subtitle-extension file whose stem contains the video's stem
case-insensitively or whose stem starts with it, and the loosened tier —
subtitle-extension files whose lowercased STEM shares a whitespace token
with the video's STEM — runs only when nothing has been collected by the
end of that pass's strict tier (including anything from earlier
directories); permission-denied directories are skipped without failing
the lookup. -/
theorem c6_sidecar_tiers :
    (∀ (vstem : String) (es : List SubEntry) (out : List String),
        scanDir vstem out ⟨es, false⟩ = out) ∧
    (∀ (vstem : String) (es : List SubEntry) (out : List String),
        scanDir vstem out ⟨es, true⟩ =
          if (out ++ (es.filter (fun e => e.isFile &&
              SUB_EXTS.contains (pyLower e.suffix) &&
              strictMatch vstem e)).map SubEntry.path).isEmpty then
            out ++ (es.filter (fun e => e.isFile &&
              SUB_EXTS.contains (pyLower e.suffix) &&
              strictMatch vstem e)).map SubEntry.path ++
              (es.filter (fun e => e.isFile &&
                SUB_EXTS.contains (pyLower e.suffix) &&
                looseMatch vstem e)).map SubEntry.path
          else
            out ++ (es.filter (fun e => e.isFile &&
              SUB_EXTS.contains (pyLower e.suffix) &&
              strictMatch vstem e)).map SubEntry.path) ∧
    (∀ (vstem : String) (parent : ScanDir),
        find_subtitles_for vstem parent none = scanDir vstem [] parent) ∧
    (∀ (vstem : String) (parent s : ScanDir),
        find_subtitles_for vstem parent (some s) =
          scanDir vstem (scanDir vstem [] parent) s) := by
  refine ⟨?_, ?_, fun _ _ => rfl, fun _ _ _ => rfl⟩
  · intro vstem es out
    unfold scanDir
    rw [if_pos (by simp)]
  · intro vstem es out
    unfold scanDir
    rw [if_neg (by simp)]
    dsimp only
    rw [candidateLoop_eq]
    by_cases h : (out ++ (es.filter (fun e => e.isFile &&
        SUB_EXTS.contains (pyLower e.suffix) && strictMatch vstem e)).map
        SubEntry.path).isEmpty = true
    · rw [if_pos h, if_pos h, candidateLoop_eq]
    · rw [if_neg h, if_neg h]

/-! ## Reconciler and record emission (compare.py lines 254-286) -/

/-- Lines 254-258 of `main`: `dst_hash_set = set(dst_hashes.keys())`;
for each `(h, fi)` of the source mapping in insertion order, append
`fi.path` to `missing` when `h` is not a destination key. -/
def missingOf (srcHashes dstHashes : List (String × FileInfo)) : List String :=
  srcHashes.foldl
    (fun acc p =>
      if dstHashes.any (fun q => q.1 == p.1) then acc else acc ++ [p.2.path]) []

theorem missingOf_foldl (dstHashes : List (String × FileInfo)) :
    ∀ (src : List (String × FileInfo)) (acc : List String),
      src.foldl (fun acc p =>
          if dstHashes.any (fun q => q.1 == p.1) then acc else acc ++ [p.2.path]) acc =
        acc ++ (src.filter
          (fun p => !(dstHashes.any (fun q => q.1 == p.1)))).map (fun p => p.2.path) := by
  intro src
  induction src with
  | nil => intro acc; simp
  | cons p rest ih =>
    intro acc
    rw [List.foldl_cons]
    by_cases h : dstHashes.any (fun q => q.1 == p.1) = true
    · rw [if_pos h, ih, List.filter_cons_of_neg (by simp [h])]
    · have hf : dstHashes.any (fun q => q.1 == p.1) = false := by
        cases hx : dstHashes.any (fun q => q.1 == p.1) with
        | false => rfl
        | true => exact absurd hx h
      rw [if_neg h, ih, List.filter_cons_of_pos (by simp [hf])]
      simp

theorem missingOf_eq (S D : List (String × FileInfo)) :
    missingOf S D =
      (S.filter (fun p => !(D.any (fun q => q.1 == p.1)))).map (fun p => p.2.path) := by
  unfold missingOf
  rw [missingOf_foldl D S []]
  rfl

/-- C2: the reconciliation emits exactly one record (here: the source
path) per source entry whose digest is not a destination key, nothing for
entries whose digest is present, and the emitted sequence follows the
insertion order of the source mapping (it is a sublist of the source
paths in order); its length is the count of absent-digest entries, and a
path appears exactly when some source entry carries it with an absent
digest. -/
theorem c2_reconciler_diff (S D : List (String × FileInfo)) :
    missingOf S D =
      (S.filter (fun p => !(D.any (fun q => q.1 == p.1)))).map (fun p => p.2.path) ∧
    List.Sublist (missingOf S D) (S.map (fun p => p.2.path)) ∧
    (missingOf S D).length = S.countP (fun p => !(D.any (fun q => q.1 == p.1))) ∧
    (∀ path : String, path ∈ missingOf S D ↔
        ∃ p ∈ S, (D.any (fun q => q.1 == p.1)) = false ∧ p.2.path = path) := by
  refine ⟨missingOf_eq S D, ?_, ?_, ?_⟩
  · rw [missingOf_eq S D]
    exact List.Sublist.map _ (List.filter_sublist S)
  · rw [missingOf_eq S D, List.length_map, List.countP_eq_length_filter]
  · intro path
    rw [missingOf_eq S D]
    constructor
    · intro h
      rcases List.mem_map.mp h with ⟨p, hp, hpath⟩
      rcases List.mem_filter.mp hp with ⟨hmem, hcond⟩
      exact ⟨p, hmem, by simpa using hcond, hpath⟩
    · rintro ⟨p, hmem, hcond, hpath⟩
      exact List.mem_map.mpr ⟨p, List.mem_filter.mpr ⟨hmem, by simp [hcond]⟩, hpath⟩

/-- The `--format` choice (line 222). -/
inductive OutFormat
  | text
  | jsonl
deriving DecidableEq, Repr

/-- Lines 260-286 of `main`, after both fingerprint mappings exist: the
exit code and the stdout lines.  With nothing missing, text mode prints
`All matched.`, jsonl mode prints nothing, and the exit code is 0;
otherwise each missing path is rendered (one JSON line, or one or two
text lines — the rendering is the `render` parameter) in order. -/
def mainOutput (srcHashes dstHashes : List (String × FileInfo)) (fmt : OutFormat)
    (render : String → List String) : Int × List String :=
  let missing := missingOf srcHashes dstHashes
  if missing.isEmpty then
    (0, match fmt with
        | OutFormat.text => ["All matched."]
        | OutFormat.jsonl => [])
  else (0, (missing.map render).flatten)

/-- C10: when every source digest is a destination key, the run exits
with code 0 and emits zero records — nothing at all on stdout in jsonl
mode, and exactly the single line `All matched.` in text mode. -/
theorem c10_all_matched (S D : List (String × FileInfo)) (render : String → List String)
    (h : ∀ p ∈ S, (D.any (fun q => q.1 == p.1)) = true) :
    mainOutput S D OutFormat.jsonl render = (0, []) ∧
      mainOutput S D OutFormat.text render = (0, ["All matched."]) := by
  have hm : missingOf S D = [] := by
    rw [missingOf_eq S D]
    rw [List.filter_eq_nil_iff.mpr (fun p hp => by simp [h p hp])]
    rfl
  constructor
  · simp [mainOutput, hm]
  · simp [mainOutput, hm]

theorem c10_witness :
    mainOutput [("d", ⟨"/s/a.mp4", 5⟩)] [("d", ⟨"/d/b.mp4", 5⟩)] OutFormat.jsonl
        (fun p => [p]) = (0, []) ∧
      mainOutput [("d", ⟨"/s/a.mp4", 5⟩)] [("d", ⟨"/d/b.mp4", 5⟩)] OutFormat.text
        (fun p => [p]) = (0, ["All matched."]) :=
  c10_all_matched [("d", ⟨"/s/a.mp4", 5⟩)] [("d", ⟨"/d/b.mp4", 5⟩)]
    (fun p => [p]) (by decide)

/-! ## `parse_size` (compare.py lines 87-94)

Python numeric conversions are modelled for decimal literals: `int(str)`
as an optionally signed digit run, `float(str)` as an optionally signed
decimal with optional fraction and exponent, represented exactly as a
pair `(n, k)` of value `n / 10 ^ k` (binary-float rounding, `inf`/`nan`
and underscore separators are out of scope).  Exceptions become error
values: `valueError` models an uncaught `ValueError` escaping from
`int()`/`float()`, `indexError` the `s[-1]` of an empty string, and
`argumentTypeError` the `argparse.ArgumentTypeError` the function raises
itself. -/

inductive PyErr
  | valueError
  | indexError
  | argumentTypeError
deriving DecidableEq, Repr

/-- Value of a digit run (0 for the empty run). -/
def digitsVal (cs : List Char) : Nat := cs.foldl (fun n c => n * 10 + (c.toNat - 48)) 0

/-- A nonempty all-digit run, or failure. -/
def natOfDigits : List Char → Option Nat
  | [] => none
  | cs => if cs.all Char.isDigit then some (digitsVal cs) else none

/-- Python `int(str)`: optional surrounding whitespace, optional sign,
then a nonempty digit run. -/
def pyInt (s : String) : Option Int :=
  match (pyStrip s).data with
  | [] => none
  | c :: rest =>
    if c = '-' then (natOfDigits rest).map (fun n => -(n : Int))
    else if c = '+' then (natOfDigits rest).map (fun n => (n : Int))
    else (natOfDigits (c :: rest)).map (fun n => (n : Int))

/-- The mantissa `digits [. digits]` of a float literal: its value scaled
to an integer, with the length of the fractional part. -/
def floatMantissa (cs : List Char) : Option (Nat × Nat) :=
  let ip := cs.takeWhile (fun c => !(c == '.'))
  let fp := (cs.dropWhile (fun c => !(c == '.'))).drop 1
  if ip.all Char.isDigit && fp.all Char.isDigit && !(ip.isEmpty && fp.isEmpty) then
    some (digitsVal ip * 10 ^ fp.length + digitsVal fp, fp.length)
  else none

/-- An optionally signed digit run (a float literal's exponent). -/
def signedDigits : List Char → Option Int
  | [] => none
  | c :: rest =>
    if c = '-' then (natOfDigits rest).map (fun n => -(n : Int))
    else if c = '+' then (natOfDigits rest).map (fun n => (n : Int))
    else (natOfDigits (c :: rest)).map (fun n => (n : Int))

/-- Python `float(str)` on a decimal literal, as the exact pair `(n, k)`
of value `n / 10 ^ k`. -/
def pyFloat (s : String) : Option (Int × Nat) :=
  match (pyStrip s).data with
  | [] => none
  | c :: rest =>
    let body := if c = '-' ∨ c = '+' then rest else c :: rest
    let m := body.takeWhile (fun c2 => !(c2 == 'e' || c2 == 'E'))
    let e := body.dropWhile (fun c2 => !(c2 == 'e' || c2 == 'E'))
    match floatMantissa m with
    | none => none
    | some (n0, k0) =>
      let signed : Int := if c = '-' then -(n0 : Int) else (n0 : Int)
      match e with
      | [] => some (signed, k0)
      | _ :: etail =>
        match signedDigits etail with
        | none => none
        | some ex =>
          if 0 ≤ ex then some (signed * ((10 ^ ex.toNat : Nat) : Int), k0)
          else some (signed, k0 + (-ex).toNat)

/-- `int()` applied to an exact value `n / d`: truncation toward zero. -/
def truncDiv (n : Int) (d : Nat) : Int :=
  match n with
  | Int.ofNat m => Int.ofNat (m / d)
  | Int.negSucc m => -(Int.ofNat ((m + 1) / d))

/-- The `units` dict of line 89 (binary multiples). -/
def unitsOf (c : Char) : Option Nat :=
  if c = 'k' then some 1024
  else if c = 'm' then some (1024 ^ 2)
  else if c = 'g' then some (1024 ^ 3)
  else if c = 't' then some (1024 ^ 4)
  else none

/-- `parse_size` (lines 87-94): strip and lowercase; if the last
character is a digit, `int(s)`; if it is a unit suffix,
`int(float(s[:-1]) * unit)`; otherwise `ArgumentTypeError`.  The empty
string hits `s[-1]` and raises `IndexError`. -/
def parse_size (s0 : String) : Except PyErr Int :=
  let s := pyLower (pyStrip s0)
  match s.data.getLast? with
  | none => Except.error PyErr.indexError
  | some c =>
    if c.isDigit then
      match pyInt s with
      | some n => Except.ok n
      | none => Except.error PyErr.valueError
    else
      match unitsOf c with
      | some u =>
        match pyFloat (String.mk s.data.dropLast) with
        | some (n, k) => Except.ok (truncDiv (n * (u : Int)) (10 ^ k))
        | none => Except.error PyErr.valueError
      | none => Except.error PyErr.argumentTypeError

/-- C9 counterexample: `parse_size "-0.001k"` returns `int(-1.024) = -1`
— `int()` truncates toward zero — while the floor demanded by the claim
is `⌊-1.024⌋ = -2`; and a string whose last character is a digit need not
return `int(s)`: `"ab3"` makes `int` raise (an uncaught `ValueError`),
not return. -/
theorem c9_counterexample :
    parse_size "-0.001k" = Except.ok (-1) ∧
      pyFloat "-0.001" = some (-1, 3) ∧
      Int.floor ((-(1 : ℚ)) / 10 ^ 3 * 1024) = -2 ∧
      parse_size "ab3" = Except.error PyErr.valueError := by
  refine ⟨rfl, rfl, ?_, rfl⟩
  rw [Int.floor_eq_iff]
  norm_num

/-- C9 (amended): after stripping and lowercasing, a string ending in a
digit returns `int(s)` when that parses, and dies with an uncaught
`ValueError` when it does not; a string ending in `k`/`m`/`g`/`t`
returns the truncation toward zero (not the floor) of
`float(prefix) * 1024^{1,2,3,4}` when the prefix parses as a float, and
dies with `ValueError` otherwise; any other nonempty string raises
`ArgumentTypeError` and the empty string `IndexError` — all before any
scanning or hashing. -/
theorem c9_parse_size_spec :
    (∀ (s : String) (c : Char) (n : Int),
        (pyLower (pyStrip s)).data.getLast? = some c → c.isDigit = true →
        pyInt (pyLower (pyStrip s)) = some n → parse_size s = Except.ok n) ∧
    (∀ (s : String) (c : Char),
        (pyLower (pyStrip s)).data.getLast? = some c → c.isDigit = true →
        pyInt (pyLower (pyStrip s)) = none →
        parse_size s = Except.error PyErr.valueError) ∧
    (∀ (s : String) (c : Char) (u : Nat) (n : Int) (k : Nat),
        (pyLower (pyStrip s)).data.getLast? = some c → c.isDigit = false →
        unitsOf c = some u →
        pyFloat (String.mk (pyLower (pyStrip s)).data.dropLast) = some (n, k) →
        parse_size s = Except.ok (truncDiv (n * (u : Int)) (10 ^ k))) ∧
    (∀ (s : String) (c : Char) (u : Nat),
        (pyLower (pyStrip s)).data.getLast? = some c → c.isDigit = false →
        unitsOf c = some u →
        pyFloat (String.mk (pyLower (pyStrip s)).data.dropLast) = none →
        parse_size s = Except.error PyErr.valueError) ∧
    (∀ (s : String) (c : Char),
        (pyLower (pyStrip s)).data.getLast? = some c → c.isDigit = false →
        unitsOf c = none → parse_size s = Except.error PyErr.argumentTypeError) ∧
    (∀ s : String, (pyLower (pyStrip s)).data.getLast? = none →
        parse_size s = Except.error PyErr.indexError) := by
  refine ⟨?_, ?_, ?_, ?_, ?_, ?_⟩
  · intro s c n hl hd hi
    unfold parse_size
    dsimp only
    rw [hl]
    dsimp only
    rw [if_pos hd, hi]
  · intro s c hl hd hi
    unfold parse_size
    dsimp only
    rw [hl]
    dsimp only
    rw [if_pos hd, hi]
  · intro s c u n k hl hd hu hf
    unfold parse_size
    dsimp only
    rw [hl]
    dsimp only
    rw [if_neg (by simp [hd]), hu]
    dsimp only
    rw [hf]
  · intro s c u hl hd hu hf
    unfold parse_size
    dsimp only
    rw [hl]
    dsimp only
    rw [if_neg (by simp [hd]), hu]
    dsimp only
    rw [hf]
  · intro s c hl hd hu
    unfold parse_size
    dsimp only
    rw [hl]
    dsimp only
    rw [if_neg (by simp [hd]), hu]
  · intro s hl
    unfold parse_size
    dsimp only
    rw [hl]

theorem c9_witness :
    parse_size "1.5k" = Except.ok (truncDiv (15 * ((1024 : Nat) : Int)) (10 ^ 1)) ∧
      truncDiv (15 * ((1024 : Nat) : Int)) (10 ^ 1) = 1536 :=
  ⟨c9_parse_size_spec.2.2.1 "1.5k" 'k' 1024 15 1 rfl rfl rfl rfl, rfl⟩

end FileBroke
